import Mathlib

/-!
Verification development for the conversational-augmentation backend
(Convoscope / AugmentOS server).  The definitions below are a shallow
embedding of the Python source:

  * `server/DatabaseHandler.py` — the per-user incremental transcript
    cursor (`get_new_cse_transcripts_for_user`,
    `find_closest_start_word_index`);
  * `server/ContextualSearchEngine.py` — the bounded fuzzy entity matcher
    (`find_combinations`, `custom_fuzzy_search`,
    `fuzzy_search_on_user_custom_data`, `remove_random_false_positives`);
  * `server/word_frequency.py` — the word-frequency oracle
    (`find_low_freq_words`).

Texts are embedded as `List Char`; Python ints as `Int`/`Nat`; Python
floats as `ℚ` (numpy `NaN`, which arises as the mean of an empty list,
is embedded as `Option ℚ` with `none` for `NaN`, and every `NaN < c`
comparison evaluates to `false` as in IEEE semantics); Python dicts as
insertion-ordered association lists.  External collaborators (the
`fuzzysearch` library's `find_near_matches`, the NLTK stop-word set and
the word-frequency corpora, and the random number generator) are passed
as explicit parameters, following the spec's §6/§9 injection guidance.
-/

namespace AugmentOS

/-! ## Python string primitives -/

/-- The space character, named once to keep definitions readable. -/
def spaceChar : Char := ' '

/-- Newline, embedded by code point. -/
def newlineChar : Char := Char.ofNat 10

/-- Carriage return, embedded by code point. -/
def crChar : Char := Char.ofNat 13

/-- Python `str.strip()`: drop leading and trailing whitespace. -/
def pyStrip (l : List Char) : List Char :=
  ((l.dropWhile Char.isWhitespace).reverse.dropWhile Char.isWhitespace).reverse

/-- Python `str.split()` with no argument: split on whitespace runs,
discarding empty chunks. -/
def pySplit (l : List Char) : List (List Char) :=
  (l.splitOnP Char.isWhitespace).filter (· ≠ [])

/-- Python `' '.join(words)`. -/
def joinSpace : List (List Char) → List Char
  | [] => []
  | [w] => w
  | w :: ws => w ++ spaceChar :: joinSpace ws

/-- Python slice `l[i:]` with Python's negative-index semantics. -/
def pySliceFrom (l : List α) (i : Int) : List α :=
  if 0 ≤ i then l.drop i.toNat
  else l.drop (l.length - min (-i).toNat l.length)

/-- Python `str.lower()` (ASCII range, as `Char.toLower`). -/
def pyLower (l : List Char) : List Char := l.map Char.toLower

/-- Python `s.replace(":", "")`: remove every colon. -/
def pyReplaceColon (l : List Char) : List Char := l.filter (· ≠ ':')

/-! ## DatabaseHandler: transcript data model

Embeds the per-user document fields used by
`get_new_cse_transcripts_for_user`: `final_transcripts`,
`latest_intermediate_transcript`, `cse_consumed_transcript_id` (`-1`
embedded as `none`) and `cse_consumed_transcript_idx`. -/

/-- A transcript document (`{"text", "timestamp", "is_final", "uuid"}`). -/
structure Transcript where
  text : List Char
  timestamp : Int
  isFinal : Bool
  uuid : Nat
  deriving DecidableEq

/-- The per-user cursor state read and written by
`get_new_cse_transcripts_for_user`. -/
structure UserState where
  finalTranscripts : List Transcript
  latestIntermediate : Transcript
  cseConsumedId : Option Nat
  cseConsumedIdx : Nat
  deriving DecidableEq

/-- Embeds `DatabaseHandler.find_closest_start_word_index`: the scanning
loop, carrying the running index `i`, the target `curr` and the
`latest_stop_index` accumulator. -/
def snapAux : List Char → Nat → Nat → Nat → Nat
  | [], _, curr, _ => curr
  | c :: cs, i, curr, latest =>
    if c = spaceChar then
      if i > curr then latest else snapAux cs (i + 1) curr i
    else snapAux cs (i + 1) curr latest

/-- Embeds `DatabaseHandler.find_closest_start_word_index(text, curr_index)`. -/
def find_closest_start_word_index (text : List Char) (currIndex : Nat) : Nat :=
  snapAux text 0 currIndex 0

/-- Embeds the backslide computation shared by both branches of
`get_new_cse_transcripts_for_user`:
`previous_text_to_backslide = most_recent_final_text + " " + prefix`,
`backslide_word_list = previous_text_to_backslide.strip().split()`,
`backslide_words = ' '.join(backslide_word_list[-(self.backslide - len(backslide_word_list)):])`
with `self.backslide = 4`. -/
def backslideWords (mostRecentFinalText consumedPrefix : List Char) : List Char :=
  let previousTextToBackslide := mostRecentFinalText ++ spaceChar :: consumedPrefix
  let backslideWordList := pySplit (pyStrip previousTextToBackslide)
  joinSpace (pySliceFrom backslideWordList ((backslideWordList.length : Int) - 4))

/-- Embeds the loop `for index, t in enumerate(user['final_transcripts'])`
inside the `cse_consumed_transcript_id != -1` branch.  `prevText` carries
`user['final_transcripts'][index - 1]['text']` (the in-place text mutation
of a matched transcript is visible to a later iteration, as in Python);
`found` records whether `first_transcript` has been set. -/
def consumeFinalsLoop (cid : Nat) (cidx : Nat) :
    List Transcript → Option (List Char) → Bool → List Transcript
  | [], _, _ => []
  | t :: rest, prevText, found =>
    if t.uuid = cid then
      let startIndex := find_closest_start_word_index t.text cidx
      let mostRecentFinalText := prevText.getD []
      let bw := backslideWords mostRecentFinalText (t.text.take startIndex)
      let newText := bw ++ spaceChar :: pyStrip (t.text.drop startIndex)
      (if newText ≠ [] then [{ t with text := newText }] else []) ++
        consumeFinalsLoop cid cidx rest (some newText) true
    else if found then
      t :: consumeFinalsLoop cid cidx rest (some t.text) true
    else
      consumeFinalsLoop cid cidx rest (some t.text) false

/-- Embeds `DatabaseHandler.get_new_cse_transcripts_for_user`, returning
the `unconsumed_transcripts` list together with the updated user state
(the update step sets `cse_consumed_transcript_id = -1` and
`cse_consumed_transcript_idx = new_index`). -/
def get_new_cse_transcripts_for_user (u : UserState) : List Transcript × UserState :=
  let result :=
    match u.cseConsumedId with
    | some cid =>
      let fromFinals := consumeFinalsLoop cid u.cseConsumedIdx u.finalTranscripts none false
      let unconsumed := fromFinals ++
        (if u.latestIntermediate.text ≠ [] then [u.latestIntermediate] else [])
      (unconsumed, 0)
    | none =>
      let t := u.latestIntermediate
      let startIndex := find_closest_start_word_index t.text u.cseConsumedIdx
      if (t.text.length : Int) - 1 > (startIndex : Int) then
        let mostRecentFinalText := (u.finalTranscripts.getLast?.map Transcript.text).getD []
        let bw := backslideWords mostRecentFinalText (t.text.take startIndex)
        let newText := bw ++ spaceChar :: pyStrip (t.text.drop startIndex)
        ([{ t with text := newText }], startIndex)
      else
        ([], startIndex)
  let unconsumed := result.1
  let indexOffset := result.2
  let newIndex :=
    match unconsumed.getLast? with
    | some last => last.text.length + indexOffset
    | none => 0
  (unconsumed, { u with cseConsumedId := none, cseConsumedIdx := newIndex })

/-! ## ContextualSearchEngine: window generation -/

/-- The body of the `combinations_set.add` step: Python set insertion,
embedded as an insertion-ordered duplicate-free list. -/
def addCombo (acc : List (List Char)) (c : List Char) : List (List Char) :=
  if c ∈ acc then acc else acc ++ [c]

/-- Embeds `ContextualSearchEngine.find_combinations(words, window_size)`:
`for window_size in range(2, window_size + 1): for i in range(len(words) - window_size + 1): ...`
(the Python `range` is evaluated once, before the loop variable is
shadowed).  `words.length + 1 - size` is Python's
`max(0, len(words) - size + 1)`. -/
def find_combinations (words : List (List Char)) (windowSize : Nat) : List (List Char) :=
  (List.range' 2 (windowSize - 1)).foldl
    (fun acc size =>
      (List.range (words.length + 1 - size)).foldl
        (fun acc i => addCombo acc (joinSpace ((words.drop i).take size)))
        acc)
    []

/-! ## ContextualSearchEngine: bounded fuzzy matcher

`find_near_matches` comes from the external `fuzzysearch` library, so the
raw span search is a parameter `fnm`; a span mirrors the library's match
object with fields `start`, `end` (embedded as `endPos`, since `end` is a
Lean keyword) and `dist`.  The word-frequency index
(`word_frequency.get_word_freq_index`, loaded from external corpora) is a
parameter `freq`, and the NLTK-derived `self.banned_words` set is a
parameter `banned`. -/

/-- A raw match span as returned by `fuzzysearch.find_near_matches`. -/
structure FuzzyMatch where
  start : Nat
  endPos : Nat
  dist : Nat
  deriving DecidableEq

/-- Embeds `ContextualSearchEngine.get_string_freq`: the arithmetic mean
of the per-word frequency indexes.  `np.mean` of an empty list is `NaN`,
embedded as `none`. -/
def get_string_freq (freq : List Char → ℚ) (text : List Char) : Option ℚ :=
  let ws := pySplit text
  if ws = [] then none else some ((ws.map freq).sum / (ws.length : ℚ))

/-- A float comparison `o < q` in which `o` may be `NaN` (`none`):
IEEE comparisons with `NaN` are false. -/
def optLt (o : Option ℚ) (q : ℚ) : Bool :=
  o.elim false (fun x => decide (x < q))

/-- Embeds the helper `get_whole_match(match_entity, full_string)` inside
`custom_fuzzy_search`: extend the raw span left and right up to (but not
including) the nearest separator. -/
def matchSeparators : List Char := [spaceChar, newlineChar, crChar, ',', ':', ';']

/-- The extended whole-match substring touched by a raw span. -/
def get_whole_match (m : FuzzyMatch) (fullString : List Char) : List Char :=
  let substring := (fullString.take m.endPos).drop m.start
  let pre := ((fullString.take m.start).reverse.takeWhile (fun c => ¬ c ∈ matchSeparators)).reverse
  let post := (fullString.drop m.endPos).takeWhile (fun c => ¬ c ∈ matchSeparators)
  pre ++ substring ++ post

/-- Embeds the helper `count_capitals(text)`. -/
def count_capitals (text : List Char) : Nat :=
  (text.filter Char.isUpper).length

/-- Embeds the helper `pascal_to_words(pascal_str)`: Python
`' '.join(re.findall(r'[A-Z]?[a-z]+|[A-Z]+(?=[A-Z]|$)', pascal_str))`.
The scanner tries, at each position, an optional capital followed by a
maximal lowercase run; failing that, a maximal run of capitals whose last
capital is given back unless the run reaches the end of the string
(the regex lookahead); failing both, it advances one character. -/
def pascalTokensLoop : Nat → List Char → List (List Char)
  | 0, _ => []
  | _, [] => []
  | fuel + 1, c :: rest =>
    if c.isLower then
      (c :: rest.takeWhile Char.isLower) ::
        pascalTokensLoop fuel (rest.drop (rest.takeWhile Char.isLower).length)
    else if c.isUpper then
      if rest.head?.elim false Char.isLower then
        (c :: rest.takeWhile Char.isLower) ::
          pascalTokensLoop fuel (rest.drop (rest.takeWhile Char.isLower).length)
      else
        let k := (rest.takeWhile Char.isUpper).length
        if rest.drop k = [] then
          (c :: rest.takeWhile Char.isUpper) :: pascalTokensLoop fuel (rest.drop k)
        else if 1 ≤ k then
          (c :: (rest.takeWhile Char.isUpper).take (k - 1)) ::
            pascalTokensLoop fuel (rest.drop (k - 1))
        else
          pascalTokensLoop fuel rest
    else
      pascalTokensLoop fuel rest

/-- The regex scanner proper: every step of `pascalTokensLoop` consumes
at least one character of the remaining input, so the scan takes at most
`length` steps and the loop is entered with that bound. -/
def pascalTokens (l : List Char) : List (List Char) :=
  pascalTokensLoop l.length l

/-- Joins the found tokens with spaces, completing `pascal_to_words`. -/
def pascal_to_words (pascalStr : List Char) : List Char :=
  joinSpace (pascalTokens pascalStr)

/-- The title normalisation applied to each catalog entity before fuzzy
search: `pascal_to_words(entity).lower().replace(":", "")`. -/
def normalizeEntity (entity : List Char) : List Char :=
  pyReplaceColon (pyLower (pascal_to_words entity))

/-- Embeds the chain of per-span acceptance filters applied inside the
`for match_entity in match_entities` loop of `custom_fuzzy_search`:
length-delta check, rarity-gated distance check, single-word suppression,
start-of-word anchor (Python's `searched_entity[match_entity.start - 1]`
embedded with `get?`, so an out-of-range span is skipped rather than
faulting). -/
def acceptMatch (freq : List Char → ℚ) (toSearch searchedEntity : List Char)
    (m : FuzzyMatch) : Bool :=
  let wholeMatch := get_whole_match m searchedEntity
  let matchDistance := ((wholeMatch.length : Int) - (toSearch.length : Int)).natAbs
  if 2 ≤ matchDistance then false
  else
    let stringFreqIndex := get_string_freq freq (pyReplaceColon wholeMatch)
    if 1 < m.dist ∧ optLt stringFreqIndex (3/50) = true then false
    else if ¬ spaceChar ∈ wholeMatch ∧ count_capitals wholeMatch < 2 then false
    else if m.start ≠ 0 ∧ searchedEntity.get? (m.start - 1) ≠ some spaceChar then false
    else true

/-- The per-entity scan loop of `custom_fuzzy_search`: for each
`(idx, entity)` pair, normalise the title, run the raw fuzzy search, and
append `idx` once per accepted span. -/
def fuzzyScan (freq : List Char → ℚ) (fnm : List Char → List Char → List FuzzyMatch)
    (toSearch : List Char) (entities : List (Nat × List Char)) : List Nat :=
  entities.foldl
    (fun found p =>
      let searchedEntity := normalizeEntity p.2
      let matchEntities := fnm (pyLower toSearch) searchedEntity
      found ++ (matchEntities.filter (acceptMatch freq toSearch searchedEntity)).map
        (fun _ => p.1))
    []

/-- Embeds `ContextualSearchEngine.custom_fuzzy_search(to_search, entities, config)`:
the three cheap rejects (minimum length 8, banned-word fraction,
phrase-frequency threshold 0.04) followed by the per-entity scan.
The banned-word fraction is exact rational division (`num_banned / len`
compared to `0.4 = 2/5`; the two sides round to equal doubles at the
boundary, so the comparison agrees with Python's float test there). -/
def custom_fuzzy_search (freq : List Char → ℚ) (banned : List (List Char))
    (fnm : List Char → List Char → List FuzzyMatch)
    (toSearch : List Char) (entities : List (Nat × List Char)) : List Nat :=
  if toSearch.length < 8 then []
  else
    let individualWords := pySplit toSearch
    let numBanned := (individualWords.filter (· ∈ banned)).length
    if (2/5 : ℚ) ≤ (numBanned : ℚ) / (individualWords.length : ℚ) then []
    else if optLt (get_string_freq freq toSearch) (1/25) then []
    else fuzzyScan freq fnm toSearch entities

/-! ## ContextualSearchEngine: result assembly and capping -/

/-- The value object built for each matched title in
`fuzzy_search_on_user_custom_data` (`name`, `summary`, `image_url`, `url`;
`np.nan` cells embedded as `none`). -/
structure MatchVal where
  name : List Char
  summary : Option (List Char)
  imageUrl : Option (List Char)
  url : Option (List Char)
  deriving DecidableEq

/-- Python dict assignment `d[k] = v` on an insertion-ordered association
list: overwrite in place if the key exists, append otherwise. -/
def dictInsert (d : List (List Char × MatchVal)) (k : List Char) (v : MatchVal) :
    List (List Char × MatchVal) :=
  if d.any (fun p => p.1 = k) then
    d.map (fun p => if p.1 = k then (k, v) else p)
  else d ++ [(k, v)]

/-- The body of the `while len(d) > max_keys` loop of
`remove_random_false_positives`: every iteration removes exactly one key,
so the loop performs at most `len(d)` iterations; the first argument is
that structural bound.  The random number generator is a parameter
`rand`; draw `n` of the stream selects key index `rand n % len(d)`. -/
def removeRandomLoop (rand : Nat → Nat) :
    Nat → Nat → List (List Char × MatchVal) → Nat → List (List Char × MatchVal)
  | 0, _, d, _ => d
  | fuel + 1, step, d, maxKeys =>
    if maxKeys < d.length then
      removeRandomLoop rand fuel (step + 1) (d.eraseIdx (rand step % d.length)) maxKeys
    else d

/-- Embeds the inner helper `remove_random_false_positives(d, max_keys)`:
`while len(d) > max_keys: d.pop(random.choice(list(d.keys())))`. -/
def remove_random_false_positives (rand : Nat → Nat) (step : Nat)
    (d : List (List Char × MatchVal)) (maxKeys : Nat) : List (List Char × MatchVal) :=
  removeRandomLoop rand d.length step d maxKeys

/-- Embeds `ContextualSearchEngine.fuzzy_search_on_user_custom_data(user_id, talk)`:
split the talk, generate word windows (`self.max_window_size = 3`), run
each window through `custom_fuzzy_search` against the enumerated titles,
build the per-title match dictionary, and cap it at
`unreasonable_num = 4` entries by random eviction.  The user's catalog
columns are parameters (`hasCustomData` embeds
`does_user_have_custom_data_loaded`; `urls`/`imageUrls` are `none` when
the column is absent). -/
def fuzzy_search_on_user_custom_data (rand : Nat → Nat) (freq : List Char → ℚ)
    (banned : List (List Char)) (fnm : List Char → List Char → List FuzzyMatch)
    (hasCustomData : Bool) (titles : List (List Char))
    (descriptions : List (Option (List Char)))
    (urls imageUrls : Option (List (Option (List Char))))
    (talk : List Char) : List (List Char × MatchVal) :=
  if ¬ hasCustomData then []
  else
    let words := pySplit talk
    let wordCombos := find_combinations words 3
    let matchesIdxs := wordCombos.foldl
      (fun acc combination =>
        acc ++ custom_fuzzy_search freq banned fnm combination titles.enum)
      []
    let matchDict := matchesIdxs.foldl
      (fun d mi =>
        dictInsert d (titles.getD mi [])
          { name := titles.getD mi []
            summary := descriptions.getD mi none
            imageUrl := (imageUrls.map (fun l => l.getD mi none)).getD none
            url := (urls.map (fun l => l.getD mi none)).getD none })
      []
    remove_random_false_positives rand 0 matchDict 4

/-! ## word_frequency: the frequency oracle -/

/-- Embeds `low_freq_threshold_google = 0.0922`. -/
def low_freq_threshold_google : ℚ := 922/10000

/-- Embeds `low_freq_threshold_norvig = 0.901`. -/
def low_freq_threshold_norvig : ℚ := 901/1000

/-- Embeds `google_lines = 333334`. -/
def google_lines : ℚ := 333334

/-- Embeds `norvig_lines = 30000`. -/
def norvig_lines : ℚ := 30000

/-- Embeds `low_freq_constant_google = low_freq_threshold_google * google_lines`. -/
def low_freq_constant_google : ℚ := low_freq_threshold_google * google_lines

/-- Embeds `low_freq_line_constant_norvig = low_freq_threshold_norvig * norvig_lines`. -/
def low_freq_line_constant_norvig : ℚ := low_freq_threshold_norvig * norvig_lines

/-- Embeds `word_frequency.find_low_freq_words(words)`.  The two corpus
indexes (`idx_google_dict_word_freq[word][0]`, caught `KeyError`s and
all) are parameters returning `Option Nat`: `none` embeds the `KeyError`
branch for a word absent from the corpus. -/
def find_low_freq_words (googleIdx norvigIdx : List Char → Option Nat) :
    List (List Char) → List (List Char)
  | [] => []
  | word :: rest =>
    let w := pyLower word
    match googleIdx w with
    | none => w :: find_low_freq_words googleIdx norvigIdx rest
    | some iGoogle =>
      let iNorvig := norvigIdx w
      if low_freq_constant_google < (iGoogle : ℚ) then
        w :: find_low_freq_words googleIdx norvigIdx rest
      else
        match iNorvig with
        | some iN =>
          if low_freq_line_constant_norvig < (iN : ℚ) then
            w :: find_low_freq_words googleIdx norvigIdx rest
          else
            find_low_freq_words googleIdx norvigIdx rest
        | none => find_low_freq_words googleIdx norvigIdx rest

/-- Whether a text uses only single inner `' '` characters as whitespace
and does not end in whitespace: every whitespace character is a space, no
two adjacent characters are both spaces, and the last character is not a
space.  Ordinary speech-transcript text has this shape. -/
def noTwoSpaces : List Char → Bool
  | c :: d :: rest => !(c = spaceChar && d = spaceChar) && noTwoSpaces (d :: rest)
  | _ => true

/-- Whitespace-normality of a transcript text. -/
def normalTextB (t : List Char) : Bool :=
  t.all (fun c => !c.isWhitespace || c = spaceChar) && noTwoSpaces t &&
    !(t.getLast? == some spaceChar)

/-- The number of trailing words the backslide slice
`words[-(4 - len(words)):]` actually keeps, as a function of the word
count `n`: all of them for `n ≤ 2`, only the last one for `n = 3`, and
the last four for `n ≥ 4`. -/
def backslideWordCount (n : Nat) : Nat :=
  if n ≤ 2 then n else if n = 3 then 1 else 4

end AugmentOS

namespace AugmentOS

theorem snapAux_le (cs : List Char) : ∀ i curr latest, latest ≤ curr →
    snapAux cs i curr latest ≤ curr := by
  induction cs with
  | nil => intro i curr latest h; simp [snapAux]
  | cons c cs ih =>
    intro i curr latest h
    simp only [snapAux]
    split
    · split
      · exact h
      · exact ih (i + 1) curr i (by omega)
    · exact ih (i + 1) curr latest h

theorem snapAux_no_space (cs : List Char) : ∀ i curr latest,
    (∀ k, cs.get? k = some spaceChar → i + k ≤ curr) →
    snapAux cs i curr latest = curr := by
  induction cs with
  | nil => intro i curr latest _; simp [snapAux]
  | cons c cs ih =>
    intro i curr latest h
    simp only [snapAux]
    split
    · rename_i hc
      have h0 : i ≤ curr := by
        have := h 0 (by simp [hc])
        omega
      have : ¬ i > curr := by omega
      simp only [this, if_false]
      exact ih (i + 1) curr i (fun k hk => by have := h (k + 1) (by simpa using hk); omega)
    · exact ih (i + 1) curr latest (fun k hk => by have := h (k + 1) (by simpa using hk); omega)

theorem snapAux_char (cs : List Char) : ∀ i curr latest, latest ≤ curr →
    (∃ k, cs.get? k = some spaceChar ∧ curr < i + k) →
    ((snapAux cs i curr latest = latest ∨
      ∃ k, cs.get? k = some spaceChar ∧ i + k ≤ curr ∧ snapAux cs i curr latest = i + k)
     ∧ ∀ k, cs.get? k = some spaceChar → i + k ≤ curr → i + k ≤ snapAux cs i curr latest) := by
  induction cs with
  | nil =>
    intro i curr latest _ hex
    exact absurd hex (by simp)
  | cons c cs ih =>
    intro i curr latest hlat hex
    simp only [snapAux]
    by_cases hc : c = spaceChar
    · simp only [hc, if_true]
      by_cases hi : i > curr
      · rw [if_pos hi]
        refine ⟨Or.inl rfl, ?_⟩
        intro k hk hkle
        omega
      · rw [if_neg hi]
        have hex' : ∃ k, cs.get? k = some spaceChar ∧ curr < (i + 1) + k := by
          obtain ⟨k, hk, hck⟩ := hex
          match k with
          | 0 => omega
          | k + 1 => exact ⟨k, by simpa using hk, by omega⟩
        obtain ⟨h1, h2⟩ := ih (i + 1) curr i (by omega) hex'
        constructor
        · rcases h1 with h1 | ⟨k, hk, hkle, hr⟩
          · exact Or.inr ⟨0, by simp [hc], by omega, by omega⟩
          · exact Or.inr ⟨k + 1, by simpa using hk, by omega, by omega⟩
        · intro k hk hkle
          match k with
          | 0 =>
            rcases h1 with h1 | ⟨k', _, _, hr⟩
            · omega
            · omega
          | k + 1 => exact by have := h2 k (by simpa using hk) (by omega); omega
    · simp only [hc, if_false]
      have hex' : ∃ k, cs.get? k = some spaceChar ∧ curr < (i + 1) + k := by
        obtain ⟨k, hk, hck⟩ := hex
        match k with
        | 0 => exact absurd hk (by simp [hc])
        | k + 1 => exact ⟨k, by simpa using hk, by omega⟩
      obtain ⟨h1, h2⟩ := ih (i + 1) curr latest hlat hex'
      constructor
      · rcases h1 with h1 | ⟨k, hk, hkle, hr⟩
        · exact Or.inl h1
        · exact Or.inr ⟨k + 1, by simpa using hk, by omega, by omega⟩
      · intro k hk hkle
        match k with
        | 0 => exact absurd hk (by simp [hc])
        | k + 1 => exact by have := h2 k (by simpa using hk) (by omega); omega

/-- C3 (amended): the word-boundary snap never moves past the target
index; when no space occurs strictly after the target it returns the
target itself (not 0); when a space does occur after the target it
returns either 0 or the index of a space, and no space at an index
at-or-before the target lies strictly beyond the returned index. -/
theorem find_closest_start_word_index_spec (text : List Char) (currIndex : Nat) :
    find_closest_start_word_index text currIndex ≤ currIndex
    ∧ ((¬ ∃ j, text.get? j = some spaceChar ∧ currIndex < j) →
        find_closest_start_word_index text currIndex = currIndex)
    ∧ ((∃ j, text.get? j = some spaceChar ∧ currIndex < j) →
        ((find_closest_start_word_index text currIndex = 0 ∨
           text.get? (find_closest_start_word_index text currIndex) = some spaceChar)
         ∧ ∀ j, text.get? j = some spaceChar → j ≤ currIndex →
             j ≤ find_closest_start_word_index text currIndex)) := by
  refine ⟨snapAux_le text 0 currIndex 0 (Nat.zero_le _), ?_, ?_⟩
  · intro hno
    apply snapAux_no_space
    intro k hk
    by_contra hgt
    exact hno ⟨k, hk, by omega⟩
  · intro hex
    have hex' : ∃ k, text.get? k = some spaceChar ∧ currIndex < 0 + k := by
      obtain ⟨j, hj, hcj⟩ := hex
      exact ⟨j, hj, by omega⟩
    obtain ⟨h1, h2⟩ := snapAux_char text 0 currIndex 0 (Nat.zero_le _) hex'
    constructor
    · rcases h1 with h1 | ⟨k, hk, hkle, hr⟩
      · exact Or.inl h1
      · right
        rw [show (0 + k) = k by omega] at hr
        rw [show find_closest_start_word_index text currIndex = snapAux text 0 currIndex 0 from rfl, hr]
        exact hk
    · intro j hj hjle
      have hr : find_closest_start_word_index text currIndex = snapAux text 0 currIndex 0 := rfl
      rw [hr]
      have := h2 j hj (by omega)
      omega

/-- C3 counterexample: on text with no space at all the function returns
the target index (here strictly inside the word "hello"), not 0 as the
claim states. -/
theorem find_closest_start_word_index_counterexample :
    find_closest_start_word_index "hello".data 3 = 3
    ∧ "hello".data.all (fun c => c ≠ spaceChar) = true
    ∧ (3 : Nat) ≠ 0 := by decide

/-- Witness for the amended C3 theorem at text "hello world", target 3. -/
theorem find_closest_start_word_index_spec_witness :
    (∃ j, "hello world".data.get? j = some spaceChar ∧ 3 < j) ∧
    (find_closest_start_word_index "hello world".data 3 = 0 ∨
      "hello world".data.get? (find_closest_start_word_index "hello world".data 3) =
        some spaceChar) :=
  ⟨⟨5, by decide, by decide⟩,
    ((find_closest_start_word_index_spec "hello world".data 3).2.2 ⟨5, by decide, by decide⟩).1⟩

end AugmentOS

namespace AugmentOS

theorem mem_addCombo (acc : List (List Char)) (c s : List Char) :
    s ∈ addCombo acc c ↔ s ∈ acc ∨ s = c := by
  unfold addCombo
  split
  · rename_i hc
    constructor
    · exact Or.inl
    · rintro (h | rfl)
      · exact h
      · exact hc
  · simp

theorem nodup_addCombo (acc : List (List Char)) (c : List Char) (h : acc.Nodup) :
    (addCombo acc c).Nodup := by
  unfold addCombo
  split
  · exact h
  · rename_i hc
    simp [List.nodup_append, h, hc]

theorem foldl_nodup {α : Type} (step : List (List Char) → α → List (List Char))
    (h : ∀ a x, a.Nodup → (step a x).Nodup) :
    ∀ (xs : List α) (acc : List (List Char)), acc.Nodup → (xs.foldl step acc).Nodup := by
  intro xs
  induction xs with
  | nil => intro acc hacc; exact hacc
  | cons x xs ih => intro acc hacc; exact ih (step acc x) (h acc x hacc)

theorem mem_foldl_addCombo {α : Type} (g : α → List Char) :
    ∀ (xs : List α) (acc : List (List Char)) (s : List Char),
    s ∈ xs.foldl (fun a x => addCombo a (g x)) acc ↔ s ∈ acc ∨ ∃ x ∈ xs, s = g x := by
  intro xs
  induction xs with
  | nil => intro acc s; simp
  | cons x xs ih =>
    intro acc s
    rw [List.foldl_cons, ih, mem_addCombo]
    simp only [List.mem_cons]
    constructor
    · rintro ((h | h) | ⟨y, hy, rfl⟩)
      · exact Or.inl h
      · exact Or.inr ⟨x, Or.inl rfl, h⟩
      · exact Or.inr ⟨y, Or.inr hy, rfl⟩
    · rintro (h | ⟨y, (rfl | hy), rfl⟩)
      · exact Or.inl (Or.inl h)
      · exact Or.inl (Or.inr rfl)
      · exact Or.inr ⟨y, hy, rfl⟩

theorem mem_find_combinations (words : List (List Char)) (maxSize : Nat) (s : List Char) :
    s ∈ find_combinations words maxSize ↔
    ∃ size, 2 ≤ size ∧ size ≤ maxSize ∧ ∃ i, i + size ≤ words.length ∧
      s = joinSpace ((words.drop i).take size) := by
  unfold find_combinations
  have outer : ∀ (sizes : List Nat) (acc : List (List Char)),
      s ∈ sizes.foldl (fun acc size =>
        (List.range (words.length + 1 - size)).foldl
          (fun acc i => addCombo acc (joinSpace ((words.drop i).take size))) acc) acc
      ↔ s ∈ acc ∨ ∃ size ∈ sizes, ∃ i ∈ List.range (words.length + 1 - size),
          s = joinSpace ((words.drop i).take size) := by
    intro sizes
    induction sizes with
    | nil => intro acc; simp
    | cons sz sizes ih =>
      intro acc
      rw [List.foldl_cons, ih, mem_foldl_addCombo (fun i => joinSpace ((words.drop i).take sz))]
      simp only [List.mem_cons]
      constructor
      · rintro ((h | ⟨i, hi, rfl⟩) | ⟨sz', hsz', i, hi, rfl⟩)
        · exact Or.inl h
        · exact Or.inr ⟨sz, Or.inl rfl, i, hi, rfl⟩
        · exact Or.inr ⟨sz', Or.inr hsz', i, hi, rfl⟩
      · rintro (h | ⟨sz', (rfl | hsz'), i, hi, rfl⟩)
        · exact Or.inl (Or.inl h)
        · exact Or.inl (Or.inr ⟨i, hi, rfl⟩)
        · exact Or.inr ⟨sz', hsz', i, hi, rfl⟩
  rw [outer]
  simp only [List.not_mem_nil, false_or, List.mem_range', List.mem_range]
  constructor
  · rintro ⟨size, ⟨t, ht, rfl⟩, i, hi, rfl⟩
    exact ⟨2 + 1 * t, by omega, by omega, i, by omega, rfl⟩
  · rintro ⟨size, h2, hle, i, hi, rfl⟩
    exact ⟨size, ⟨size - 2, by omega, by omega⟩, i, by omega, rfl⟩

/-- C4: `find_combinations` returns exactly the duplicate-free collection
of all space-joined contiguous runs of 2..max_size consecutive words:
membership is characterised for every input, the output never contains a
duplicate, and on `["a","b","c"]` with max size 3 it is exactly
the three windows "a b", "b c", "a b c". -/
theorem find_combinations_spec :
    (∀ (words : List (List Char)) (maxSize : Nat) (s : List Char),
      s ∈ find_combinations words maxSize ↔
      ∃ size, 2 ≤ size ∧ size ≤ maxSize ∧ ∃ i, i + size ≤ words.length ∧
        s = joinSpace ((words.drop i).take size))
    ∧ (∀ (words : List (List Char)) (maxSize : Nat),
        (find_combinations words maxSize).Nodup)
    ∧ find_combinations ["a".data, "b".data, "c".data] 3 =
        ["a b".data, "b c".data, "a b c".data] := by
  refine ⟨mem_find_combinations, ?_, by decide⟩
  intro words maxSize
  unfold find_combinations
  apply foldl_nodup
  · intro a sz ha
    exact foldl_nodup _ (fun a i hai => nodup_addCombo a _ hai) _ a ha
  · exact List.nodup_nil

end AugmentOS

namespace AugmentOS

/-- C9: a word absent from the google corpus is classified as rare (it
appears, lower-cased, in the low-frequency output); the embedded
function is total, so no exception path exists. -/
theorem find_low_freq_words_absent (googleIdx norvigIdx : List Char → Option Nat)
    (words : List (List Char)) (w : List Char) (hw : w ∈ words)
    (habs : googleIdx (pyLower w) = none) :
    pyLower w ∈ find_low_freq_words googleIdx norvigIdx words := by
  induction words with
  | nil => cases hw
  | cons w' rest ih =>
    rcases List.mem_cons.mp hw with rfl | hmem
    · simp only [find_low_freq_words, habs]
      exact List.mem_cons_self _ _
    · have hrec := ih hmem
      simp only [find_low_freq_words]
      cases hg : googleIdx (pyLower w') with
      | none => exact List.mem_cons_of_mem _ hrec
      | some iG =>
        dsimp only
        by_cases h1 : low_freq_constant_google < (iG : ℚ)
        · rw [if_pos h1]
          exact List.mem_cons_of_mem _ hrec
        · rw [if_neg h1]
          cases hn : norvigIdx (pyLower w') with
          | some iN =>
            dsimp only
            by_cases h2 : low_freq_line_constant_norvig < (iN : ℚ)
            · rw [if_pos h2]
              exact List.mem_cons_of_mem _ hrec
            · rw [if_neg h2]
              exact hrec
          | none => exact hrec

/-- Witness for C9 at the single unseen word "Zyzzyx" and empty corpora. -/
theorem find_low_freq_words_absent_witness :
    ("Zyzzyx".data ∈ ["Zyzzyx".data]) ∧
    pyLower "Zyzzyx".data ∈
      find_low_freq_words (fun _ => none) (fun _ => none) ["Zyzzyx".data] :=
  ⟨by simp,
    find_low_freq_words_absent (fun _ => none) (fun _ => none) ["Zyzzyx".data]
      "Zyzzyx".data (by simp) rfl⟩

theorem removeRandomLoop_length (rand : Nat → Nat) :
    ∀ (fuel step : Nat) (d : List (List Char × MatchVal)) (maxKeys : Nat),
    d.length ≤ fuel + maxKeys →
    (removeRandomLoop rand fuel step d maxKeys).length ≤ maxKeys := by
  intro fuel
  induction fuel with
  | zero =>
    intro step d mk hd
    simp only [removeRandomLoop]
    omega
  | succ fuel ih =>
    intro step d mk hd
    simp only [removeRandomLoop]
    split
    · rename_i h
      apply ih
      rw [List.length_eraseIdx]
      have hpos : 0 < d.length := by omega
      rw [if_pos (Nat.mod_lt _ hpos)]
      omega
    · rename_i h
      omega

theorem remove_random_false_positives_length (rand : Nat → Nat) (step : Nat)
    (d : List (List Char × MatchVal)) (maxKeys : Nat) :
    (remove_random_false_positives rand step d maxKeys).length ≤ maxKeys :=
  removeRandomLoop_length rand d.length step d maxKeys (by omega)

/-- C7: the match dictionary returned by
`fuzzy_search_on_user_custom_data` contains at most `unreasonable_num = 4`
entries, for every catalog, every talk text, every raw matcher and every
random stream. -/
theorem fuzzy_search_on_user_custom_data_capped (rand : Nat → Nat)
    (freq : List Char → ℚ) (banned : List (List Char))
    (fnm : List Char → List Char → List FuzzyMatch) (hasCustomData : Bool)
    (titles : List (List Char)) (descriptions : List (Option (List Char)))
    (urls imageUrls : Option (List (Option (List Char)))) (talk : List Char) :
    (fuzzy_search_on_user_custom_data rand freq banned fnm hasCustomData titles
      descriptions urls imageUrls talk).length ≤ 4 := by
  unfold fuzzy_search_on_user_custom_data
  split
  · simp
  · exact remove_random_false_positives_length rand 0 _ 4

/-- C6: `remove_random_false_positives` is driven by the random stream:
two different streams produce two different surviving dictionaries from
the same five-entry input, so the eviction of excess matches is not a
deterministic function of the match set. -/
theorem remove_random_false_positives_nondeterministic :
    remove_random_false_positives (fun _ => 0) 0
      [("a".data, ⟨"a".data, none, none, none⟩),
       ("b".data, ⟨"b".data, none, none, none⟩),
       ("c".data, ⟨"c".data, none, none, none⟩),
       ("d".data, ⟨"d".data, none, none, none⟩),
       ("e".data, ⟨"e".data, none, none, none⟩)] 4 ≠
    remove_random_false_positives (fun _ => 1) 0
      [("a".data, ⟨"a".data, none, none, none⟩),
       ("b".data, ⟨"b".data, none, none, none⟩),
       ("c".data, ⟨"c".data, none, none, none⟩),
       ("d".data, ⟨"d".data, none, none, none⟩),
       ("e".data, ⟨"e".data, none, none, none⟩)] 4 := by decide

end AugmentOS

namespace AugmentOS

theorem noTwoSpaces_tail (c : Char) (l : List Char) (h : noTwoSpaces (c :: l) = true) :
    noTwoSpaces l = true := by
  cases l with
  | nil => rfl
  | cons d rest =>
    simp only [noTwoSpaces, Bool.and_eq_true] at h
    exact h.2

theorem noTwoSpaces_drop (s : Nat) : ∀ (t : List Char), noTwoSpaces t = true →
    noTwoSpaces (t.drop s) = true := by
  induction s with
  | zero => intro t h; exact h
  | succ s ih =>
    intro t h
    cases t with
    | nil => rfl
    | cons c l => exact ih l (noTwoSpaces_tail c l h)

theorem getLast?_drop_of_ne_nil (s : Nat) : ∀ (t : List Char), t.drop s ≠ [] →
    (t.drop s).getLast? = t.getLast? := by
  induction s with
  | zero => intro t _; rfl
  | succ s ih =>
    intro t hne
    cases t with
    | nil => exact absurd rfl hne
    | cons c l =>
      rw [List.drop_succ_cons] at hne ⊢
      rw [ih l hne]
      cases l with
      | nil => simp at hne
      | cons d rest => exact (List.getLast?_cons_cons).symm

/-- For whitespace-normal text, dropping `s` characters and stripping
loses at most one character beyond position `s`. -/
theorem pyStrip_drop_length (t : List Char) (s : Nat)
    (hall : t.all (fun c => !c.isWhitespace || c = spaceChar) = true)
    (h2 : noTwoSpaces t = true) (hlast : ¬ t.getLast? = some spaceChar)
    (hs : s + 2 ≤ t.length) :
    t.length ≤ (pyStrip (t.drop s)).length + s + 1 := by
  have hmem_t : ∀ c, c ∈ t → c.isWhitespace → c = spaceChar := by
    intro c hc hw
    have := List.all_eq_true.mp hall c hc
    simpa [hw] using this
  have hdlen : (t.drop s).length = t.length - s := List.length_drop s t
  have hdne : t.drop s ≠ [] := by
    intro h
    rw [h] at hdlen
    simp at hdlen
    omega
  have hdmem : ∀ c, c ∈ t.drop s → c ∈ t := fun c hc => (List.drop_sublist s t).subset hc
  have hd2 : noTwoSpaces (t.drop s) = true := noTwoSpaces_drop s t h2
  have hdlast : (t.drop s).getLast? = t.getLast? := getLast?_drop_of_ne_nil s t hdne
  -- analyse the head of the dropped suffix
  obtain ⟨a, d', hd⟩ : ∃ a d', t.drop s = a :: d' := by
    cases h : t.drop s with
    | nil => exact absurd h hdne
    | cons a d' => exact ⟨a, d', rfl⟩
  obtain ⟨b, rest, hd'⟩ : ∃ b rest, d' = b :: rest := by
    cases h : d' with
    | nil =>
      rw [h] at hd
      have : (t.drop s).length = 1 := by rw [hd]; rfl
      omega
    | cons b rest => exact ⟨b, rest, rfl⟩
  subst hd'
  -- step 1: dropWhile removes at most one character
  have hx : ∃ x : List Char, (t.drop s).dropWhile Char.isWhitespace = x ∧
      (t.drop s).length ≤ x.length + 1 ∧ x ≠ [] ∧ x.getLast? = (t.drop s).getLast? := by
    by_cases ha : a.isWhitespace
    · have haSp : a = spaceChar := hmem_t a (hdmem a (by rw [hd]; simp)) ha
      have hbSp : ¬ b = spaceChar := by
        rw [hd] at hd2
        simp only [noTwoSpaces, Bool.and_eq_true, Bool.not_eq_true'] at hd2
        intro hb
        rw [haSp] at hd2
        simp [hb] at hd2
      have hbw : ¬ b.isWhitespace := by
        intro hbws
        exact hbSp (hmem_t b (hdmem b (by rw [hd]; simp)) hbws)
      refine ⟨b :: rest, ?_, ?_, by simp, ?_⟩
      · rw [hd, List.dropWhile_cons_of_pos (by simpa using ha),
          List.dropWhile_cons_of_neg (by simpa using hbw)]
      · rw [hd]
        simp
      · rw [hd]
        exact (List.getLast?_cons_cons).symm
    · refine ⟨t.drop s, ?_, by omega, hdne, rfl⟩
      rw [hd, List.dropWhile_cons_of_neg (by simpa using ha), ← hd]
  obtain ⟨x, hxeq, hxlen, hxne, hxlast⟩ := hx
  -- step 2: the reversed dropWhile removes nothing
  obtain ⟨e, he⟩ : ∃ e, x.getLast? = some e := by
    cases h : x.getLast? with
    | none => exact absurd (List.getLast?_eq_none_iff.mp h) hxne
    | some e => exact ⟨e, rfl⟩
  have heMem : e ∈ x := List.mem_of_mem_getLast? he
  have heNotSp : ¬ e = spaceChar := by
    intro hsp
    apply hlast
    rw [← hdlast, ← hxlast, he, hsp]
  have heNotWs : ¬ e.isWhitespace := by
    intro hws
    have hex : e ∈ t := hdmem e ((List.dropWhile_sublist _).subset (hxeq ▸ heMem))
    exact heNotSp (hmem_t e hex hws)
  have hrev : x.reverse.head? = some e := by rw [List.head?_reverse, he]
  obtain ⟨ys, hys⟩ : ∃ ys, x.reverse = e :: ys := by
    have hrne : x.reverse ≠ [] := by simpa using hxne
    obtain ⟨y, ys, hyys⟩ := List.exists_cons_of_ne_nil hrne
    refine ⟨ys, ?_⟩
    rw [hyys] at hrev ⊢
    simp only [List.head?_cons, Option.some.injEq] at hrev
    rw [hrev]
  have hstrip : pyStrip (t.drop s) = x := by
    unfold pyStrip
    rw [hxeq, hys, List.dropWhile_cons_of_neg (by simpa using heNotWs), ← hys,
      List.reverse_reverse]
  rw [hstrip]
  omega

theorem consume_state_id (u : UserState) :
    (get_new_cse_transcripts_for_user u).2.cseConsumedId = none := rfl

theorem consume_state_intermediate (u : UserState) :
    (get_new_cse_transcripts_for_user u).2.latestIntermediate = u.latestIntermediate := rfl

end AugmentOS

namespace AugmentOS

theorem consume_none_not_consumed (u : UserState) (h : u.cseConsumedId = none)
    (hc : ¬ ((u.latestIntermediate.text.length : ℤ) - 1 >
      (find_closest_start_word_index u.latestIntermediate.text u.cseConsumedIdx : ℤ))) :
    (get_new_cse_transcripts_for_user u).1 = [] := by
  unfold get_new_cse_transcripts_for_user
  rw [h]
  dsimp only
  rw [if_neg hc]

theorem consume_none_consumed (u : UserState) (h : u.cseConsumedId = none)
    (hc : (u.latestIntermediate.text.length : ℤ) - 1 >
      (find_closest_start_word_index u.latestIntermediate.text u.cseConsumedIdx : ℤ)) :
    (get_new_cse_transcripts_for_user u).1 =
      [{ u.latestIntermediate with
          text := backslideWords
              ((u.finalTranscripts.getLast?.map Transcript.text).getD [])
              (u.latestIntermediate.text.take
                (find_closest_start_word_index u.latestIntermediate.text u.cseConsumedIdx))
            ++ spaceChar ::
              pyStrip (u.latestIntermediate.text.drop
                (find_closest_start_word_index u.latestIntermediate.text u.cseConsumedIdx)) }]
    ∧ (get_new_cse_transcripts_for_user u).2.cseConsumedIdx =
        (backslideWords
            ((u.finalTranscripts.getLast?.map Transcript.text).getD [])
            (u.latestIntermediate.text.take
              (find_closest_start_word_index u.latestIntermediate.text u.cseConsumedIdx))
          ++ spaceChar ::
            pyStrip (u.latestIntermediate.text.drop
              (find_closest_start_word_index u.latestIntermediate.text u.cseConsumedIdx))).length
          + find_closest_start_word_index u.latestIntermediate.text u.cseConsumedIdx := by
  unfold get_new_cse_transcripts_for_user
  rw [h]
  dsimp only
  rw [if_pos hc]
  dsimp only
  exact ⟨rfl, rfl⟩

theorem consume_some_idx (u : UserState) (cid : Nat) (h : u.cseConsumedId = some cid)
    (hne : u.latestIntermediate.text ≠ []) :
    (get_new_cse_transcripts_for_user u).2.cseConsumedIdx =
      u.latestIntermediate.text.length := by
  unfold get_new_cse_transcripts_for_user
  rw [h]
  dsimp only
  rw [if_pos hne, List.getLast?_concat]
  dsimp only
  omega

end AugmentOS

namespace AugmentOS

/-- C1 (amended): when the first call returns a nonempty transcript list
and the intermediate text is whitespace-normal, a second call of
`get_new_cse_transcripts_for_user` with no ingestion in between returns
the empty list.  (When the first call returns nothing, the update step
resets `cse_consumed_transcript_idx` to 0, so the claim as stated fails —
see the counterexample.) -/
theorem consume_second_call_empty (u : UserState)
    (hnorm : normalTextB u.latestIntermediate.text = true)
    (hne : (get_new_cse_transcripts_for_user u).1 ≠ []) :
    (get_new_cse_transcripts_for_user (get_new_cse_transcripts_for_user u).2).1 = [] := by
  have hvid : (get_new_cse_transcripts_for_user u).2.cseConsumedId = none :=
    consume_state_id u
  apply consume_none_not_consumed _ hvid
  rw [consume_state_intermediate u]
  by_cases htnil : u.latestIntermediate.text = []
  · rw [htnil]
    have : find_closest_start_word_index []
        (get_new_cse_transcripts_for_user u).2.cseConsumedIdx =
        (get_new_cse_transcripts_for_user u).2.cseConsumedIdx := rfl
    rw [this]
    simp only [List.length_nil, not_lt, gt_iff_lt]
    omega
  · have hidx : u.latestIntermediate.text.length ≤
        (get_new_cse_transcripts_for_user u).2.cseConsumedIdx := by
      cases hid : u.cseConsumedId with
      | some cid => rw [consume_some_idx u cid hid htnil]
      | none =>
        by_cases hc : (u.latestIntermediate.text.length : ℤ) - 1 >
            (find_closest_start_word_index u.latestIntermediate.text u.cseConsumedIdx : ℤ)
        · obtain ⟨-, hidx2⟩ := consume_none_consumed u hid hc
          rw [hidx2]
          have hnorm' := hnorm
          unfold normalTextB at hnorm'
          simp only [Bool.and_eq_true, Bool.not_eq_true', beq_eq_false_iff_ne, ne_eq]
            at hnorm'
          obtain ⟨⟨hall, h2⟩, hlast⟩ := hnorm'
          have hs2 : find_closest_start_word_index u.latestIntermediate.text
              u.cseConsumedIdx + 2 ≤ u.latestIntermediate.text.length := by omega
          have hstrip := pyStrip_drop_length u.latestIntermediate.text
            (find_closest_start_word_index u.latestIntermediate.text u.cseConsumedIdx)
            hall h2 hlast hs2
          simp only [List.length_append, List.length_cons]
          omega
        · exact absurd (consume_none_not_consumed u hid hc) hne
    have hsnap : find_closest_start_word_index u.latestIntermediate.text
        (get_new_cse_transcripts_for_user u).2.cseConsumedIdx =
        (get_new_cse_transcripts_for_user u).2.cseConsumedIdx := by
      apply snapAux_no_space
      intro k hk
      have hklt : k < u.latestIntermediate.text.length := (List.get?_eq_some.mp hk).1
      omega
    rw [hsnap]
    omega

/-- Witness for the amended C1 theorem: a fresh user state with
intermediate text "hello world". -/
theorem consume_second_call_empty_witness :
    (normalTextB "hello world".data = true
      ∧ (get_new_cse_transcripts_for_user
          (UserState.mk [] ⟨"hello world".data, 0, false, 0⟩ none 0)).1 ≠ [])
    ∧ (get_new_cse_transcripts_for_user
        (get_new_cse_transcripts_for_user
          (UserState.mk [] ⟨"hello world".data, 0, false, 0⟩ none 0)).2).1 = [] :=
  ⟨⟨by decide, by decide⟩,
    consume_second_call_empty (UserState.mk [] ⟨"hello world".data, 0, false, 0⟩ none 0)
      (by decide) (by decide)⟩

/-- C1 counterexample: starting from the reachable state produced by
consuming "hello world" once, the next call returns the empty list but
resets the cursor to 0, so the call after it returns a nonempty list
again — the second of two back-to-back calls is not always empty. -/
theorem consume_idempotency_counterexample :
    (get_new_cse_transcripts_for_user
      (get_new_cse_transcripts_for_user
        (UserState.mk [] ⟨"hello world".data, 0, false, 0⟩ none 0)).2).1 = []
    ∧ (get_new_cse_transcripts_for_user
        (get_new_cse_transcripts_for_user
          (get_new_cse_transcripts_for_user
            (UserState.mk [] ⟨"hello world".data, 0, false, 0⟩ none 0)).2).2).1 ≠ [] := by
  decide

end AugmentOS

namespace AugmentOS

/-- C2 (amended): the backslide prefix is the space-join of the last
`backslideWordCount n` words of the prior context (previous final text
plus the already-consumed prefix), not of the last `min 4 n` words — for
a three-word prior context only one word is kept; and whenever the
intermediate branch consumes, the returned transcript text is exactly
that backslide prefix, a space, and the stripped new text. -/
theorem consume_backslide_spec :
    (∀ prev pre : List Char,
      backslideWords prev pre =
        joinSpace ((pySplit (pyStrip (prev ++ spaceChar :: pre))).drop
          ((pySplit (pyStrip (prev ++ spaceChar :: pre))).length -
            backslideWordCount (pySplit (pyStrip (prev ++ spaceChar :: pre))).length)))
    ∧ (∀ u : UserState, u.cseConsumedId = none →
        (u.latestIntermediate.text.length : ℤ) - 1 >
          (find_closest_start_word_index u.latestIntermediate.text u.cseConsumedIdx : ℤ) →
        (get_new_cse_transcripts_for_user u).1 =
          [{ u.latestIntermediate with
              text := backslideWords
                  ((u.finalTranscripts.getLast?.map Transcript.text).getD [])
                  (u.latestIntermediate.text.take
                    (find_closest_start_word_index u.latestIntermediate.text u.cseConsumedIdx))
                ++ spaceChar ::
                  pyStrip (u.latestIntermediate.text.drop
                    (find_closest_start_word_index u.latestIntermediate.text
                      u.cseConsumedIdx)) }]) := by
  constructor
  · intro prev pre
    unfold backslideWords
    dsimp only
    congr 1
    generalize pySplit (pyStrip (prev ++ spaceChar :: pre)) = wl
    unfold pySliceFrom backslideWordCount
    split_ifs with h0 h1 h2 <;> (congr 1; omega)
  · intro u h hc
    exact (consume_none_consumed u h hc).1

/-- Witness for the amended C2 theorem: the spec's own four-word example,
where final segment "the quick brown fox" precedes intermediate
"jumps over the lazy dog"; all four trailing words are re-injected. -/
theorem consume_backslide_spec_witness :
    ((UserState.mk [Transcript.mk "the quick brown fox".data 0 true 7]
        (Transcript.mk "jumps over the lazy dog".data 1 false 8) none 0).cseConsumedId = none
      ∧ ((UserState.mk [Transcript.mk "the quick brown fox".data 0 true 7]
            (Transcript.mk "jumps over the lazy dog".data 1 false 8) none
            0).latestIntermediate.text.length : ℤ) - 1 >
          (find_closest_start_word_index
            (UserState.mk [Transcript.mk "the quick brown fox".data 0 true 7]
              (Transcript.mk "jumps over the lazy dog".data 1 false 8) none
              0).latestIntermediate.text
            (UserState.mk [Transcript.mk "the quick brown fox".data 0 true 7]
              (Transcript.mk "jumps over the lazy dog".data 1 false 8) none
              0).cseConsumedIdx : ℤ))
    ∧ (get_new_cse_transcripts_for_user
        (UserState.mk [Transcript.mk "the quick brown fox".data 0 true 7]
          (Transcript.mk "jumps over the lazy dog".data 1 false 8) none 0)).1.map
        Transcript.text = ["the quick brown fox jumps over the lazy dog".data] :=
  ⟨⟨rfl, by decide⟩, by
    rw [consume_backslide_spec.2
      (UserState.mk [Transcript.mk "the quick brown fox".data 0 true 7]
        (Transcript.mk "jumps over the lazy dog".data 1 false 8) none 0) rfl (by decide)]
    decide⟩

/-- C2 counterexample: with a three-word prior context
"quick brown fox" fully consumed, the backslide keeps only "fox", so the
returned text does not begin with the claimed min(4,3) = 3 trailing
words. -/
theorem consume_backslide_counterexample :
    (pySplit (pyStrip ("quick brown fox".data ++ spaceChar :: []))).length = 3
    ∧ (get_new_cse_transcripts_for_user
        (UserState.mk [Transcript.mk "quick brown fox".data 0 true 7]
          (Transcript.mk "jumps over the lazy dog".data 1 false 8) none 0)).1.map
        Transcript.text = ["fox jumps over the lazy dog".data]
    ∧ "fox jumps over the lazy dog".data.take "quick brown fox".data.length ≠
        "quick brown fox".data := by
  refine ⟨by decide, by decide, by decide⟩

end AugmentOS

namespace AugmentOS

/-- C5 (amended): the cheap-reject stage of `custom_fuzzy_search` returns
the empty match list — without invoking the per-title scan — exactly when
the candidate is shorter than 8 characters, or the banned-word fraction
is at least 0.4 (the boundary fraction 0.4 itself is rejected, since the
code tests `>= 0.4`), or the candidate's phrase-frequency index is below
0.04; when none of the three conditions holds the result is the
per-entity scan. -/
theorem custom_fuzzy_search_cheap_rejects :
    (∀ (freq : List Char → ℚ) (banned : List (List Char))
        (fnm : List Char → List Char → List FuzzyMatch) (toSearch : List Char)
        (entities : List (Nat × List Char)),
      (toSearch.length < 8
        ∨ (2/5 : ℚ) ≤ ((((pySplit toSearch).filter (· ∈ banned)).length : ℚ) /
            ((pySplit toSearch).length : ℚ))
        ∨ optLt (get_string_freq freq toSearch) (1/25) = true) →
      custom_fuzzy_search freq banned fnm toSearch entities = [])
    ∧ (∀ (freq : List Char → ℚ) (banned : List (List Char))
        (fnm : List Char → List Char → List FuzzyMatch) (toSearch : List Char)
        (entities : List (Nat × List Char)),
      ¬ toSearch.length < 8 →
      ¬ (2/5 : ℚ) ≤ ((((pySplit toSearch).filter (· ∈ banned)).length : ℚ) /
          ((pySplit toSearch).length : ℚ)) →
      ¬ optLt (get_string_freq freq toSearch) (1/25) = true →
      custom_fuzzy_search freq banned fnm toSearch entities =
        fuzzyScan freq fnm toSearch entities) := by
  constructor
  · intro freq banned fnm toSearch entities hrej
    unfold custom_fuzzy_search
    by_cases h1 : toSearch.length < 8
    · rw [if_pos h1]
    · rw [if_neg h1]
      dsimp only
      by_cases h2 : (2/5 : ℚ) ≤ ((((pySplit toSearch).filter (· ∈ banned)).length : ℚ) /
          ((pySplit toSearch).length : ℚ))
      · rw [if_pos h2]
      · rw [if_neg h2]
        by_cases h3 : optLt (get_string_freq freq toSearch) (1/25) = true
        · rw [if_pos h3]
        · rw [if_neg h3]
          rcases hrej with h | h | h
          · exact absurd h h1
          · exact absurd h h2
          · exact absurd h h3
  · intro freq banned fnm toSearch entities h1 h2 h3
    unfold custom_fuzzy_search
    rw [if_neg h1]
    dsimp only
    rw [if_neg h2, if_neg h3]

/-- Witness for the amended C5 theorem: a five-character candidate is
cheap-rejected for every matcher and catalog. -/
theorem custom_fuzzy_search_cheap_rejects_witness :
    ("short".data.length < 8
      ∨ (2/5 : ℚ) ≤ ((((pySplit "short".data).filter
          (· ∈ ([] : List (List Char)))).length : ℚ) /
          ((pySplit "short".data).length : ℚ))
      ∨ optLt (get_string_freq (fun _ => 1) "short".data) (1/25) = true)
    ∧ custom_fuzzy_search (fun _ => 1) [] (fun _ _ => []) "short".data [] = [] :=
  ⟨Or.inl (by decide),
    custom_fuzzy_search_cheap_rejects.1 (fun _ => 1) [] (fun _ _ => []) "short".data []
      (Or.inl (by decide))⟩

unseal Rat.mul Rat.add Rat.inv Rat.sub in
/-- C5 counterexample: the candidate
"yeah going spectroscopy bonsai arcane" has banned-word fraction exactly
2/5 = 0.4 and passes the length and rarity checks, and the raw matcher
would accept it against an identical catalog title (as the run with one
fewer banned word shows), yet the cheap-reject stage returns the empty
list — a fraction of exactly 0.4 is rejected, contrary to the claim. -/
theorem custom_fuzzy_search_boundary_counterexample :
    ((((pySplit "yeah going spectroscopy bonsai arcane".data).filter
        (· ∈ ["yeah".data, "going".data])).length : ℚ) /
        ((pySplit "yeah going spectroscopy bonsai arcane".data).length : ℚ) = 2/5)
    ∧ custom_fuzzy_search (fun _ => 1) ["yeah".data, "going".data]
        (fun _ e => [⟨0, e.length, 0⟩])
        "yeah going spectroscopy bonsai arcane".data
        [(0, "yeah going spectroscopy bonsai arcane".data)] = []
    ∧ custom_fuzzy_search (fun _ => 1) ["yeah".data]
        (fun _ e => [⟨0, e.length, 0⟩])
        "yeah going spectroscopy bonsai arcane".data
        [(0, "yeah going spectroscopy bonsai arcane".data)] = [0] := by
  refine ⟨by decide, by decide, by decide⟩

end AugmentOS

namespace AugmentOS

theorem toLower_isUpper_false (c : Char) : (Char.toLower c).isUpper = false := by
  have hle : ∀ a b : UInt32, (a ≤ b) ↔ a.toNat ≤ b.toNat := by
    intro a b
    rw [UInt32.le_def, BitVec.le_def]
    exact Iff.rfl
  have key : ∀ d : Char, ¬ (d.toNat ≥ 65 ∧ d.toNat ≤ 90) → d.isUpper = false := by
    intro d hd
    simp only [Char.isUpper, Bool.and_eq_false_iff, decide_eq_false_iff_not, ge_iff_le,
      not_le]
    have h65 : ((65 : UInt32) ≤ d.val) ↔ 65 ≤ d.toNat := by
      rw [hle]
      exact Iff.rfl
    have h90 : (d.val ≤ (90 : UInt32)) ↔ d.toNat ≤ 90 := by
      rw [hle]
      exact Iff.rfl
    by_cases hc : 65 ≤ d.toNat
    · right
      rw [h90]
      omega
    · left
      rw [h65]
      omega
  simp only [Char.toLower]
  split
  · rename_i h
    apply key
    have hv : (c.toNat + 32).isValidChar := Or.inl (by omega)
    have hval : (Char.ofNat (c.toNat + 32)).toNat = c.toNat + 32 := by
      simp only [Char.ofNat, hv, dite_true]
      simp [Char.ofNatAux, Char.toNat, UInt32.toNat]
    rw [hval]
    omega
  · rename_i h
    apply key
    omega

theorem normalizeEntity_no_upper (entity : List Char) :
    ∀ c ∈ normalizeEntity entity, c.isUpper = false := by
  intro c hc
  unfold normalizeEntity pyReplaceColon pyLower at hc
  have hc2 := (List.mem_filter.mp hc).1
  obtain ⟨a, _, rfl⟩ := List.mem_map.mp hc2
  exact toLower_isUpper_false a

theorem count_capitals_eq_zero (l : List Char) (h : ∀ c ∈ l, c.isUpper = false) :
    count_capitals l = 0 := by
  unfold count_capitals
  rw [List.length_eq_zero, List.filter_eq_nil_iff]
  intro a ha
  simp [h a ha]

theorem mem_get_whole_match (m : FuzzyMatch) (s : List Char) (c : Char)
    (hc : c ∈ get_whole_match m s) : c ∈ s := by
  unfold get_whole_match at hc
  rcases List.mem_append.mp hc with hc1 | hpost
  · rcases List.mem_append.mp hc1 with hpre | hsub
    · have := List.mem_reverse.mp hpre
      have := (List.takeWhile_sublist _).subset this
      have := List.mem_reverse.mp this
      exact (List.take_sublist _ _).subset this
    · have := (List.drop_sublist _ _).subset hsub
      exact (List.take_sublist _ _).subset this
  · have := (List.takeWhile_sublist _).subset hpost
    exact (List.drop_sublist _ _).subset this

theorem acceptMatch_true_classify (freq : List Char → ℚ) (toSearch searched : List Char)
    (m : FuzzyMatch) (h : acceptMatch freq toSearch searched m = true) :
    (m.start = 0 ∨ searched.get? (m.start - 1) = some spaceChar)
    ∧ (spaceChar ∈ get_whole_match m searched
        ∨ 2 ≤ count_capitals (get_whole_match m searched)) := by
  unfold acceptMatch at h
  dsimp only at h
  split_ifs at h with h1 h2 h3 h4
  · constructor
    · by_cases hs : m.start = 0
      · exact Or.inl hs
      · right
        by_contra hget
        exact h4 ⟨hs, hget⟩
    · by_cases hsp : spaceChar ∈ get_whole_match m searched
      · exact Or.inl hsp
      · right
        by_contra hcc
        exact h3 ⟨hsp, by omega⟩

theorem mem_fuzzyScan (freq : List Char → ℚ)
    (fnm : List Char → List Char → List FuzzyMatch) (toSearch : List Char) :
    ∀ (entities : List (Nat × List Char)) (acc : List Nat) (idx : Nat),
    (idx ∈ entities.foldl
      (fun found p =>
        found ++ ((fnm (pyLower toSearch) (normalizeEntity p.2)).filter
          (acceptMatch freq toSearch (normalizeEntity p.2))).map (fun _ => p.1)) acc
    ↔ idx ∈ acc ∨ ∃ p ∈ entities, p.1 = idx ∧
        ∃ m ∈ fnm (pyLower toSearch) (normalizeEntity p.2),
          acceptMatch freq toSearch (normalizeEntity p.2) m = true) := by
  intro entities
  induction entities with
  | nil => intro acc idx; simp
  | cons p ps ih =>
    intro acc idx
    rw [List.foldl_cons, ih]
    simp only [List.mem_append, List.mem_map, List.mem_filter, List.mem_cons]
    constructor
    · rintro ((h | ⟨m, ⟨hm, hacc⟩, rfl⟩) | ⟨q, hq, hqidx, m, hm, hacc⟩)
      · exact Or.inl h
      · exact Or.inr ⟨p, Or.inl rfl, rfl, m, hm, hacc⟩
      · exact Or.inr ⟨q, Or.inr hq, hqidx, m, hm, hacc⟩
    · rintro (h | ⟨q, (rfl | hq), hqidx, m, hm, hacc⟩)
      · exact Or.inl (Or.inl h)
      · exact Or.inl (Or.inr ⟨m, ⟨hm, hacc⟩, hqidx⟩)
      · exact Or.inr ⟨q, hq, hqidx, m, hm, hacc⟩

theorem mem_custom_fuzzy_search (freq : List Char → ℚ) (banned : List (List Char))
    (fnm : List Char → List Char → List FuzzyMatch) (toSearch : List Char)
    (entities : List (Nat × List Char)) (idx : Nat)
    (h : idx ∈ custom_fuzzy_search freq banned fnm toSearch entities) :
    ∃ p ∈ entities, p.1 = idx ∧
      ∃ m ∈ fnm (pyLower toSearch) (normalizeEntity p.2),
        acceptMatch freq toSearch (normalizeEntity p.2) m = true := by
  unfold custom_fuzzy_search at h
  by_cases h1 : toSearch.length < 8
  · rw [if_pos h1] at h
    cases h
  · rw [if_neg h1] at h
    dsimp only at h
    by_cases h2 : (2/5 : ℚ) ≤ ((((pySplit toSearch).filter (· ∈ banned)).length : ℚ) /
        ((pySplit toSearch).length : ℚ))
    · rw [if_pos h2] at h
      cases h
    · rw [if_neg h2] at h
      by_cases h3 : optLt (get_string_freq freq toSearch) (1/25) = true
      · rw [if_pos h3] at h
        cases h
      · rw [if_neg h3] at h
        unfold fuzzyScan at h
        have := (mem_fuzzyScan freq fnm toSearch entities [] idx).mp h
        simpa using this

/-- C8: every id contributed to the result of `custom_fuzzy_search` comes
from an accepted raw span that begins at position 0 of the normalized
catalog title or is immediately preceded by a space character; a span
failing the start-of-word anchor contributes nothing. -/
theorem custom_fuzzy_search_start_anchor (freq : List Char → ℚ)
    (banned : List (List Char)) (fnm : List Char → List Char → List FuzzyMatch)
    (toSearch : List Char) (entities : List (Nat × List Char)) (idx : Nat)
    (h : idx ∈ custom_fuzzy_search freq banned fnm toSearch entities) :
    ∃ p ∈ entities, p.1 = idx ∧
      ∃ m ∈ fnm (pyLower toSearch) (normalizeEntity p.2),
        acceptMatch freq toSearch (normalizeEntity p.2) m = true ∧
        (m.start = 0 ∨ (normalizeEntity p.2).get? (m.start - 1) = some spaceChar) := by
  obtain ⟨p, hp, hpidx, m, hm, hacc⟩ := mem_custom_fuzzy_search freq banned fnm toSearch
    entities idx h
  exact ⟨p, hp, hpidx, m, hm, hacc,
    (acceptMatch_true_classify freq toSearch (normalizeEntity p.2) m hacc).1⟩

/-- C10: because every normalized title is lower-cased, an accepted
whole-match span contains no capital letter, the PascalCase capital-count
exemption can never fire, and therefore every accepted match's
whole-match span contains at least one space — a single-word whole match
is always rejected, however the original title was capitalized. -/
theorem custom_fuzzy_search_whole_match_has_space (freq : List Char → ℚ)
    (banned : List (List Char)) (fnm : List Char → List Char → List FuzzyMatch)
    (toSearch : List Char) (entities : List (Nat × List Char)) (idx : Nat)
    (h : idx ∈ custom_fuzzy_search freq banned fnm toSearch entities) :
    ∃ p ∈ entities, p.1 = idx ∧
      ∃ m ∈ fnm (pyLower toSearch) (normalizeEntity p.2),
        acceptMatch freq toSearch (normalizeEntity p.2) m = true ∧
        count_capitals (get_whole_match m (normalizeEntity p.2)) = 0 ∧
        spaceChar ∈ get_whole_match m (normalizeEntity p.2) := by
  obtain ⟨p, hp, hpidx, m, hm, hacc⟩ := mem_custom_fuzzy_search freq banned fnm toSearch
    entities idx h
  have hcc : count_capitals (get_whole_match m (normalizeEntity p.2)) = 0 :=
    count_capitals_eq_zero _
      (fun c hc => normalizeEntity_no_upper p.2 c (mem_get_whole_match m _ c hc))
  have hsp := (acceptMatch_true_classify freq toSearch (normalizeEntity p.2) m hacc).2
  rcases hsp with hsp | hsp
  · exact ⟨p, hp, hpidx, m, hm, hacc, hcc, hsp⟩
  · omega

end AugmentOS

namespace AugmentOS

unseal Rat.mul Rat.add Rat.inv Rat.sub in
/-- Witness for C8: the candidate "yeah going spectroscopy bonsai arcane"
matched against an identical catalog title produces id 0, and the
accepted span satisfies the start-of-word anchor. -/
theorem custom_fuzzy_search_start_anchor_witness :
    (0 ∈ custom_fuzzy_search (fun _ => 1) [] (fun _ e => [FuzzyMatch.mk 0 e.length 0])
        "yeah going spectroscopy bonsai arcane".data
        [(0, "yeah going spectroscopy bonsai arcane".data)])
    ∧ ∃ p ∈ [(0, "yeah going spectroscopy bonsai arcane".data)], p.1 = 0 ∧
        ∃ m ∈ (fun (_ : List Char) (e : List Char) => [FuzzyMatch.mk 0 e.length 0])
            (pyLower "yeah going spectroscopy bonsai arcane".data)
            (normalizeEntity p.2),
          acceptMatch (fun _ => 1) "yeah going spectroscopy bonsai arcane".data
            (normalizeEntity p.2) m = true ∧
          (m.start = 0 ∨ (normalizeEntity p.2).get? (m.start - 1) = some spaceChar) :=
  ⟨by decide,
    custom_fuzzy_search_start_anchor (fun _ => 1) []
      (fun _ e => [FuzzyMatch.mk 0 e.length 0])
      "yeah going spectroscopy bonsai arcane".data
      [(0, "yeah going spectroscopy bonsai arcane".data)] 0 (by decide)⟩

unseal Rat.mul Rat.add Rat.inv Rat.sub in
/-- Witness for C10: the candidate "fedora tips" against the capitalized
catalog title "Fedora Tips and Tricks" produces id 5, with a whole match
containing no capital and at least one space. -/
theorem custom_fuzzy_search_whole_match_has_space_witness :
    (5 ∈ custom_fuzzy_search (fun _ => 1) [] (fun _ _ => [FuzzyMatch.mk 0 11 0])
        "fedora tips".data [(5, "Fedora Tips and Tricks".data)])
    ∧ ∃ p ∈ [(5, "Fedora Tips and Tricks".data)], p.1 = 5 ∧
        ∃ m ∈ (fun (_ : List Char) (_ : List Char) => [FuzzyMatch.mk 0 11 0])
            (pyLower "fedora tips".data) (normalizeEntity p.2),
          acceptMatch (fun _ => 1) "fedora tips".data (normalizeEntity p.2) m = true ∧
          count_capitals (get_whole_match m (normalizeEntity p.2)) = 0 ∧
          spaceChar ∈ get_whole_match m (normalizeEntity p.2) :=
  ⟨by decide,
    custom_fuzzy_search_whole_match_has_space (fun _ => 1) []
      (fun _ _ => [FuzzyMatch.mk 0 11 0]) "fedora tips".data
      [(5, "Fedora Tips and Tricks".data)] 5 (by decide)⟩

end AugmentOS

namespace AugmentOS

/-- Witness for C4: "a b" is a member of the generated windows, via the
membership characterisation at size 2, offset 0. -/
theorem find_combinations_spec_witness :
    "a b".data ∈ find_combinations ["a".data, "b".data, "c".data] 3 :=
  (find_combinations_spec.1 ["a".data, "b".data, "c".data] 3 "a b".data).mpr
    ⟨2, by omega, by omega, 0, by decide, by decide⟩

end AugmentOS
